import Mathlib

/-
Verification development for the Truth-Table generator
(source: TrutTableCode.py, class LogicExpressionParser).

The Python source is shallowly embedded below:
  tokenize_expression          -> tokenizeExpr
  convert_to_postfix           -> convertToRpn
  evaluate_postfix_expression  -> evalRpnExpr
  create_truth_table           -> createTruthTable
Tokens are the plain strings the Python code manipulates; Python
exceptions become `Except` errors (one constructor per distinct
`raise` site or builtin exception that can escape).
-/

namespace TruthTable

/-! ## Tokenizer (tokenize_expression) -/

/-- Characters matched by Python's regex class `\s` (ASCII range). -/
def pyIsSpace (c : Char) : Bool :=
  c = ' ' || c = '\t' || c = '\n' || c = '\r' || c = Char.ofNat 11 || c = Char.ofNat 12

/-- Python `str.upper()` on the ASCII strings this program handles
(written over the character list so that it reduces in the kernel). -/
def pyUpper (s : String) : String :=
  String.mk (s.data.map Char.toUpper)

/-- The alternatives of the OPERATOR branch of the token regex
`<->|->|~|\^|or|AND|OR|NOT|IMPLIES|IFF`, in the order the regex tries
them (Python alternation takes the first alternative that matches). -/
def operatorLits : List String :=
  ["<->", "->", "~", "^", "or", "AND", "OR", "NOT", "IMPLIES", "IFF"]

/-- `lit` matches at the start of the character stream `cs`
(each regex alternative is a literal, so matching is a prefix test). -/
def litMatch : List Char → List Char → Bool
  | [], _ => true
  | _ :: _, [] => false
  | p :: ps, c :: cs => p = c && litMatch ps cs

/-- First OPERATOR alternative matching at the head of `cs`. -/
def findOp (cs : List Char) : Option String :=
  operatorLits.find? (fun lit => litMatch lit.toList cs)

/-- `symbol_map.get(key, key)`: the dictionary maps the glyphs
`~ ^ or -> <->` to canonical operator names, defaulting to the key. -/
def symbolMapGet (key : String) : String :=
  if key = "~" then "NOT"
  else if key = "^" then "AND"
  else if key = "or" then "OR"
  else if key = "->" then "IMPLIES"
  else if key = "<->" then "IFF"
  else key

/-- Token emitted for an OPERATOR match:
`symbol_map.get(value.upper(), value.upper())`. -/
def opToken (lit : String) : String :=
  symbolMapGet (pyUpper lit)

/-- The six letters of the VARIABLE class `[PQRpqr]`. -/
def varChars : List Char :=
  ['P', 'Q', 'R', 'p', 'q', 'r']

/-- The one error `tokenize_expression` raises:
`ValueError(f"Unexpected character: {value}")` for an UNKNOWN match. -/
inductive LexErr
  | unexpectedChar (c : Char)
deriving DecidableEq, Repr

/-- One regex match step per recursive call, trying the token classes in
the order of `token_spec`: LPAREN, RPAREN, OPERATOR, VARIABLE, CONSTANT,
WHITESPACE, UNKNOWN.  `fuel` bounds the recursion; every step consumes at
least one character, so `fuel = cs.length` always suffices. -/
def tokenizeAux : Nat → List Char → Except LexErr (List String)
  | _, [] => .ok []
  | 0, c :: _ => .error (.unexpectedChar c)
  | fuel + 1, c :: rest =>
    if c = '(' then
      (tokenizeAux fuel rest).map (fun ts => "(" :: ts)
    else if c = ')' then
      (tokenizeAux fuel rest).map (fun ts => ")" :: ts)
    else
      match findOp (c :: rest) with
      | some lit =>
        (tokenizeAux fuel ((c :: rest).drop lit.length)).map (fun ts => opToken lit :: ts)
      | none =>
        if varChars.contains c then
          (tokenizeAux fuel rest).map (fun ts => pyUpper (String.mk [c]) :: ts)
        else if litMatch "TRUE".toList (c :: rest) then
          (tokenizeAux fuel ((c :: rest).drop 4)).map (fun ts => "TRUE" :: ts)
        else if litMatch "FALSE".toList (c :: rest) then
          (tokenizeAux fuel ((c :: rest).drop 5)).map (fun ts => "FALSE" :: ts)
        else if pyIsSpace c then
          tokenizeAux fuel ((c :: rest).dropWhile pyIsSpace)
        else
          .error (.unexpectedChar c)

/-- `tokenize_expression`: scan the whole input. -/
def tokenizeExpr (s : String) : Except LexErr (List String) :=
  tokenizeAux s.toList.length s.toList

/-! ## Infix to Reverse-Polish conversion (convert_to_postfix) -/

/-- `variables_set = {'P', 'Q', 'R'}` (listed in sorted order). -/
def variablesSet : List String := ["P", "Q", "R"]

/-- The constant literals `{'TRUE', 'FALSE'}`. -/
def constantsSet : List String := ["TRUE", "FALSE"]

/-- The keys of `self.operators`. -/
def operatorNames : List String := ["NOT", "AND", "OR", "IMPLIES", "IFF"]

/-- `token in self.operators`. -/
def isOpName (t : String) : Bool :=
  operatorNames.contains t

/-- `precedence_levels`; only ever consulted on operator names. -/
def precLevel (t : String) : Nat :=
  if t = "NOT" then 3
  else if t = "AND" then 2
  else if t = "OR" then 2
  else if t = "IMPLIES" then 1
  else if t = "IFF" then 1
  else 0

inductive Assoc
  | left
  | right
deriving DecidableEq, Repr

/-- `associativity_map`: NOT is RIGHT, every binary operator LEFT. -/
def assocOf (t : String) : Assoc :=
  if t = "NOT" then .right else .left

/-- Errors escaping `convert_to_postfix`: its own
`ValueError(f"Unknown token: ...")` and `ValueError("Mismatched
parentheses")`, plus the `IndexError` from `operators.pop()` on an empty
stack in the RPAREN branch. -/
inductive ConvErr
  | unknownToken (t : String)
  | mismatched
  | popEmpty
deriving DecidableEq, Repr

/-- The inner `while` of the operator branch: pop higher-priority
operators from the stack (head = top) to the output. -/
def popWhileOps (token : String) : List String → List String → List String × List String
  | top :: restOps, out =>
    if isOpName top = true ∧
        ((assocOf token = Assoc.left ∧ precLevel token ≤ precLevel top) ∨
         (assocOf token = Assoc.right ∧ precLevel token < precLevel top)) then
      popWhileOps token restOps (out ++ [top])
    else
      (top :: restOps, out)
  | [], out => ([], out)

/-- RPAREN branch: pop to output until a left parenthesis, then discard
it; `operators.pop()` on an exhausted stack raises IndexError. -/
def popUntilLparen : List String → List String → Except ConvErr (List String × List String)
  | [], _ => .error .popEmpty
  | top :: restOps, out =>
    if top = "(" then .ok (restOps, out)
    else popUntilLparen restOps (out ++ [top])

/-- Final `while operators:` loop: a leftover parenthesis raises
`ValueError("Mismatched parentheses")`, otherwise pop to output. -/
def drainOps : List String → List String → Except ConvErr (List String)
  | [], out => .ok out
  | top :: restOps, out =>
    if top = "(" ∨ top = ")" then .error .mismatched
    else drainOps restOps (out ++ [top])

/-- Main token loop of `convert_to_postfix`, carrying the operator stack
(head = top) and the output list. -/
def convertAux : List String → List String → List String → Except ConvErr (List String × List String)
  | [], ops, out => .ok (ops, out)
  | t :: ts, ops, out =>
    if variablesSet.contains t || constantsSet.contains t then
      convertAux ts ops (out ++ [t])
    else if isOpName t then
      let p := popWhileOps t ops out
      convertAux ts (t :: p.1) p.2
    else if t = "(" then
      convertAux ts ("(" :: ops) out
    else if t = ")" then
      match popUntilLparen ops out with
      | .ok (ops', out') => convertAux ts ops' out'
      | .error e => .error e
    else
      .error (.unknownToken t)

/-- `convert_to_postfix`: run the token loop, then drain the stack. -/
def convertToRpn (tokens : List String) : Except ConvErr (List String) :=
  match convertAux tokens [] [] with
  | .ok (ops, out) => drainOps ops out
  | .error e => .error e

/-! ## Evaluation of the Reverse-Polish form (evaluate_postfix_expression) -/

/-- Errors escaping `evaluate_postfix_expression`: its own
`ValueError(f"Unknown token: ...")` and `ValueError("Invalid postfix
expression")`, the `KeyError` from `values[token]`, and the `IndexError`
from `stack.pop()` on an empty stack. -/
inductive EvalErr
  | unknownToken (t : String)
  | keyError (v : String)
  | popEmpty
  | invalidRpn
deriving DecidableEq, Repr

/-- The display glyph dictionary `.get(token, token)` of the binary
operator branch. -/
def opGlyph (t : String) : String :=
  if t = "AND" then "^"
  else if t = "OR" then "v"
  else if t = "IMPLIES" then "->"
  else if t = "IFF" then "<->"
  else t

/-- The boolean functions of `self.operators` for the binary operators
(`AND`, `OR`, `IMPLIES`, `IFF`). -/
def applyBin (t : String) (a b : Bool) : Bool :=
  if t = "AND" then a && b
  else if t = "OR" then a || b
  else if t = "IMPLIES" then !a || b
  else a == b

/-- Token loop of `evaluate_postfix_expression`: `stack` (head = top)
holds (label, value) pairs, `results` is the trace appended in
evaluation order. -/
def evalAux (values : List (String × Bool)) :
    List String → List (String × Bool) → List (String × Bool) →
    Except EvalErr (List (String × Bool) × List (String × Bool))
  | [], stack, results => .ok (stack, results)
  | t :: ts, stack, results =>
    if variablesSet.contains t then
      match values.lookup t with
      | some v => evalAux values ts ((t, v) :: stack) results
      | none => .error (.keyError t)
    else if constantsSet.contains t then
      evalAux values ts ((t, t == "TRUE") :: stack) results
    else if isOpName t then
      if t = "NOT" then
        match stack with
        | (aExpr, aVal) :: restStack =>
          evalAux values ts (("~" ++ aExpr, !aVal) :: restStack)
            (results ++ [("~" ++ aExpr, !aVal)])
        | [] => .error .popEmpty
      else
        match stack with
        | (bExpr, bVal) :: (aExpr, aVal) :: restStack =>
          evalAux values ts
            ((aExpr ++ " " ++ opGlyph t ++ " " ++ bExpr, applyBin t aVal bVal) :: restStack)
            (results ++ [(aExpr ++ " " ++ opGlyph t ++ " " ++ bExpr, applyBin t aVal bVal)])
        | _ => .error .popEmpty
    else
      .error (.unknownToken t)

/-- `evaluate_postfix_expression`: run the scan from empty stack and
trace, then demand exactly one stack entry and return its value with
the trace. -/
def evalRpnExpr (rpn : List String) (values : List (String × Bool)) :
    Except EvalErr (Bool × List (String × Bool)) :=
  match evalAux values rpn [] [] with
  | .ok (stack, results) =>
    match stack with
    | [entry] => .ok (entry.2, results)
    | _ => .error .invalidRpn
  | .error e => .error e

/-! ## Truth table generation (create_truth_table) -/

/-- `sorted(variables_set.intersection(...))`: the distinct variables
referenced by the token list, in sorted order.  Filtering the sorted
universe `["P", "Q", "R"]` is that sorted intersection. -/
def sortedVars (tokens : List String) : List String :=
  variablesSet.filter (fun v => tokens.contains v)

/-- `itertools.product([False, True], repeat=k)`: all `2^k` boolean
tuples, first coordinate varying slowest (the loop over the first pool
element is outermost). -/
def boolProd : Nat → List (List Bool)
  | 0 => [[]]
  | n + 1 =>
    (boolProd n).map (fun t => false :: t) ++ (boolProd n).map (fun t => true :: t)

/-- `dict.fromkeys`: deduplicate, keeping the first occurrence order. -/
def dedupFirstAux (seen : List String) : List String → List String
  | [] => []
  | x :: xs =>
    if seen.contains x then dedupFirstAux seen xs
    else x :: dedupFirstAux (x :: seen) xs

def dedupFirst (l : List String) : List String :=
  dedupFirstAux [] l

/-- `{sub: res for sub, res in intermediate}.get(k, d)`: a dict
comprehension keeps the LAST binding of a duplicated key. -/
def lookupLast (l : List (String × Bool)) (k : String) : Option Bool :=
  l.reverse.lookup k

/-- `[values[var] for var in vars]` on the row dict: `none` models the
KeyError that would escape uncaught. -/
def lookupAll (values : List (String × Bool)) : List String → Option (List Bool)
  | [] => some []
  | v :: vs =>
    match values.lookup v with
    | some b => (lookupAll values vs).map (fun bs => b :: bs)
    | none => none

/-- The distinguishable outcomes of `create_truth_table`:
  * `noVariables`: the `if not combinations` branch (prints "No
    variables found in the expression." and returns False);
  * `lexCrash`: `tokenize_expression` raised, uncaught here;
  * `evalError`: the first-evaluation `try` caught an exception
    ("Error during evaluation", returns False);
  * `headerCrash`: `max()` over an empty header list raised, uncaught;
  * `rowError`: the per-row `except ValueError` fired
    ("Error evaluating expression", returns False);
  * `rowCrash`: a per-row exception other than ValueError, uncaught;
  * `table`: the headers, the per-row boolean cells, and the returned
    tautology flag. -/
inductive TableOutcome
  | noVariables
  | lexCrash (e : LexErr)
  | evalError
  | headerCrash
  | rowError
  | rowCrash
  | table (headers : List String) (rows : List (List Bool)) (tautology : Bool)
deriving DecidableEq, Repr

/-- Which `ConvErr`s are Python `ValueError`s (the per-row handler
catches only those). -/
def convErrIsValueError : ConvErr → Bool
  | .unknownToken _ => true
  | .mismatched => true
  | .popEmpty => false

/-- Which `EvalErr`s are Python `ValueError`s. -/
def evalErrIsValueError : EvalErr → Bool
  | .unknownToken _ => true
  | .invalidRpn => true
  | .popEmpty => false
  | .keyError _ => false

/-- Second half of the row-loop `try` block: evaluation of the already
converted sequence under the row's assignment; a ValueError is caught,
anything else is an uncaught crash. -/
def rowEval2 (vars : List String) (combo : List Bool) (rpn : List String) :
    Except TableOutcome (Bool × List (String × Bool)) :=
  match evalRpnExpr rpn (vars.zip combo) with
  | .error e => .error (if evalErrIsValueError e then .rowError else .rowCrash)
  | .ok res => .ok res

/-- The row-loop `try` block: per-row reconversion and reevaluation
(`self.evaluate_postfix_expression(self.convert_to_postfix(tokens),
values)`), with the per-row `except ValueError` handling. -/
def rowEval (tokens vars : List String) (combo : List Bool) :
    Except TableOutcome (Bool × List (String × Bool)) :=
  match convertToRpn tokens with
  | .error e => .error (if convErrIsValueError e then .rowError else .rowCrash)
  | .ok rpn => rowEval2 vars combo rpn

/-- The `for combo in combinations:` loop: per row, reconvert and
reevaluate, build the row's cells (variable columns from `values[var]`,
sub-expression columns via `sub_results.get(sub, False)`), and clear
the tautology flag on a false final value. -/
def rowLoopAux (tokens vars subHeaders : List String) :
    List (List Bool) → List (List Bool) → Bool → TableOutcome
  | [], rowsAcc, taut => .table (vars ++ subHeaders) rowsAcc taut
  | combo :: rest, rowsAcc, taut =>
    match rowEval tokens vars combo with
    | .error out => out
    | .ok (finalResult, intermediate) =>
      match lookupAll (vars.zip combo) vars with
      | none => .rowCrash
      | some varVals =>
        rowLoopAux tokens vars subHeaders rest
          (rowsAcc ++ [varVals ++ subHeaders.map (fun s => (lookupLast intermediate s).getD false)])
          (if finalResult then taut else false)

/-- Header discovery and row loop, after the first conversion
succeeded: run the first-assignment evaluation inside the catch-all
`try`, build the deduplicated headers, crash on `max()` over an empty
header list, then loop over every assignment. -/
def buildTable2 (tokens vars : List String) (combos : List (List Bool)) (rpn : List String) :
    TableOutcome :=
  match evalRpnExpr rpn (vars.zip (combos.headD [])) with
  | .error _ => .evalError
  | .ok (_, subExpressions) =>
    let subHeaders := dedupFirst (subExpressions.map Prod.fst)
    if (vars ++ subHeaders).isEmpty then .headerCrash
    else rowLoopAux tokens vars subHeaders combos [] true

/-- Body of `create_truth_table` after tokenization: sorted referenced
variables, the assignment product, the (dead) no-variables check, and
the first-assignment conversion under the catch-all `try`. -/
def buildTable (tokens : List String) : TableOutcome :=
  let vars := sortedVars tokens
  let combos := boolProd vars.length
  if combos.isEmpty then .noVariables
  else
    match convertToRpn tokens with
    | .error _ => .evalError
    | .ok rpn => buildTable2 tokens vars combos rpn

/-- `create_truth_table`: tokenize (a lexical error escapes uncaught),
then build the table. -/
def createTruthTable (expression : String) : TableOutcome :=
  match tokenizeExpr expression with
  | .error e => .lexCrash e
  | .ok tokens => buildTable tokens

/-! ## Spec-side definitions used for refinement statements -/

/-- Modelled from the spec (section 4.4 step 2): row `i` of the
canonical enumeration is the `k`-bit binary expansion of `i`, most
significant bit first, so the LAST variable varies fastest. -/
def natBits : Nat → Nat → List Bool
  | 0, _ => []
  | k + 1, i => natBits k (i / 2) ++ [i % 2 == 1]

/-- Modelled from the spec: counting from all-false (row 0) to all-true
(row `2^k - 1`). -/
def countingOrder (k : Nat) : List (List Bool) :=
  (List.range (2 ^ k)).map (natBits k)

/-- The canonical tokens the tokenizer can emit. -/
def canonicalTokens : List String :=
  ["P", "Q", "R", "TRUE", "FALSE", "(", ")", "NOT", "AND", "OR", "IMPLIES", "IFF"]

/-- Operand or operator: the token alphabet of a converted
Reverse-Polish sequence. -/
def operandOrOp (t : String) : Bool :=
  variablesSet.contains t || constantsSet.contains t || isOpName t

/-- Number of operator tokens in a Reverse-Polish sequence. -/
def opCount (rpn : List String) : Nat :=
  (rpn.filter isOpName).length

/-- Evaluation half of `rowFinal`. -/
def rowFinal2 (vars : List String) (combo : List Bool) (rpn : List String) : Option Bool :=
  match evalRpnExpr rpn (vars.zip combo) with
  | .ok (b, _) => some b
  | .error _ => none

/-- The final value of one table row: reconvert and reevaluate under
the row's assignment, as the row loop does. -/
def rowFinal (tokens vars : List String) (combo : List Bool) : Option Bool :=
  match convertToRpn tokens with
  | .ok rpn => rowFinal2 vars combo rpn
  | .error _ => none

/-- The label-only projection of the evaluation scan: the same token
walk as `evalAux`, carrying only the label components of the stack and
the trace.  It never consults the assignment, which is the heart of the
trace-label invariance argument. -/
def labelRun : List String → List String → List String → Option (List String × List String)
  | [], ls, rs => some (ls, rs)
  | t :: ts, ls, rs =>
    if variablesSet.contains t then labelRun ts (t :: ls) rs
    else if constantsSet.contains t then labelRun ts (t :: ls) rs
    else if isOpName t then
      if t = "NOT" then
        match ls with
        | a :: restLabels => labelRun ts (("~" ++ a) :: restLabels) (rs ++ ["~" ++ a])
        | [] => none
      else
        match ls with
        | b :: a :: restLabels =>
          labelRun ts ((a ++ " " ++ opGlyph t ++ " " ++ b) :: restLabels)
            (rs ++ [a ++ " " ++ opGlyph t ++ " " ++ b])
        | _ => none
    else none

/-- Reference recording discipline for the evaluation trace, following
the spec's description of the scan (amended to the code's recording):
the same left-to-right walk over the operand/label stack, written
without a trace accumulator, that emits exactly one (label, value) pair
at each operator application — consed in front of the remaining scan's
output, so the result lists the applications in evaluation order — and
emits nothing for operand tokens.  The evaluator's trace is proved to
coincide with this output. -/
def specScan (values : List (String × Bool)) :
    List String → List (String × Bool) →
    Option (List (String × Bool) × List (String × Bool))
  | [], stack => some (stack, [])
  | t :: ts, stack =>
    if variablesSet.contains t then
      match values.lookup t with
      | some v => specScan values ts ((t, v) :: stack)
      | none => none
    else if constantsSet.contains t then
      specScan values ts ((t, t == "TRUE") :: stack)
    else if isOpName t then
      if t = "NOT" then
        match stack with
        | (aExpr, aVal) :: restStack =>
          (specScan values ts (("~" ++ aExpr, !aVal) :: restStack)).map
            (fun pr => (pr.1, ("~" ++ aExpr, !aVal) :: pr.2))
        | [] => none
      else
        match stack with
        | (bExpr, bVal) :: (aExpr, aVal) :: restStack =>
          (specScan values ts
            ((aExpr ++ " " ++ opGlyph t ++ " " ++ bExpr, applyBin t aVal bVal) :: restStack)).map
            (fun pr =>
              (pr.1, (aExpr ++ " " ++ opGlyph t ++ " " ++ bExpr, applyBin t aVal bVal) :: pr.2))
        | _ => none
    else none

/-! ## Helper lemmas -/

theorem except_map_ok {ε α β : Type} {f : α → β} {e : Except ε α} {b : β}
    (h : e.map f = .ok b) : ∃ a, e = .ok a ∧ b = f a := by
  cases e <;> simp_all [Except.map]

theorem mem_of_contains_vars {t : String} (h : variablesSet.contains t = true) :
    t = "P" ∨ t = "Q" ∨ t = "R" := by
  simpa [variablesSet, List.contains] using h

theorem mem_of_contains_consts {t : String} (h : constantsSet.contains t = true) :
    t = "TRUE" ∨ t = "FALSE" := by
  simpa [constantsSet, List.contains] using h

theorem var_not_opName {t : String} (h : variablesSet.contains t = true) :
    isOpName t = false := by
  rcases mem_of_contains_vars h with rfl | rfl | rfl <;> rfl

theorem const_not_opName {t : String} (h : constantsSet.contains t = true) :
    isOpName t = false := by
  rcases mem_of_contains_consts h with rfl | rfl <;> rfl

/-- Successful evaluation appends exactly one trace entry per operator
token: the trace length grows by the number of operator tokens
scanned, and operand tokens contribute nothing. -/
theorem evalAux_ok_trace_length :
    ∀ (ts : List String) (values stack results st res : List (String × Bool)),
      evalAux values ts stack results = .ok (st, res) →
      res.length = results.length + opCount ts := by
  intro ts
  induction ts with
  | nil =>
    intro values stack results st res h
    simp only [evalAux, Except.ok.injEq, Prod.mk.injEq] at h
    simp [opCount, ← h.2]
  | cons t ts ih =>
    intro values stack results st res h
    simp only [evalAux] at h
    by_cases hv : variablesSet.contains t = true
    · rw [if_pos hv] at h
      cases hl : values.lookup t with
      | none => rw [hl] at h; cases h
      | some v =>
        rw [hl] at h
        have := ih values _ results st res h
        simp [opCount, List.filter_cons, var_not_opName hv] at this ⊢
        omega
    · rw [if_neg hv] at h
      by_cases hc : constantsSet.contains t = true
      · rw [if_pos hc] at h
        have := ih values _ results st res h
        simp [opCount, List.filter_cons, const_not_opName hc] at this ⊢
        omega
      · rw [if_neg hc] at h
        by_cases ho : isOpName t = true
        · rw [if_pos ho] at h
          by_cases hn : t = "NOT"
          · rw [if_pos hn] at h
            subst hn
            cases stack with
            | nil => cases h
            | cons top rest =>
              have := ih values _ _ st res h
              simp [opCount, List.filter_cons, ho] at this ⊢
              omega
          · rw [if_neg hn] at h
            match stack, h with
            | [], h => cases h
            | [top], h => cases h
            | (bE, bV) :: (aE, aV) :: rest, h =>
              have := ih values _ _ st res h
              simp [opCount, List.filter_cons, ho] at this ⊢
              omega
        · rw [if_neg ho] at h
          cases h

/-- A successful evaluation scan extends the incoming trace by exactly
the operator-application pairs of the remaining walk, in evaluation
order — the new entries are the output of the reference recording
discipline `specScan` from the same stack. -/
theorem evalAux_specScan :
    ∀ (ts : List String) (values stack results st res : List (String × Bool)),
      evalAux values ts stack results = .ok (st, res) →
      ∃ newEntries, res = results ++ newEntries ∧
        specScan values ts stack = some (st, newEntries) := by
  intro ts
  induction ts with
  | nil =>
    intro values stack results st res h
    simp only [evalAux, Except.ok.injEq, Prod.mk.injEq] at h
    exact ⟨[], by simp [h.2], by simp [specScan, h.1]⟩
  | cons t ts ih =>
    intro values stack results st res h
    simp only [evalAux] at h
    simp only [specScan]
    by_cases hv : variablesSet.contains t = true
    · rw [if_pos hv] at h ⊢
      cases hl : values.lookup t with
      | none => rw [hl] at h; cases h
      | some v =>
        rw [hl] at h
        exact ih values _ results st res h
    · rw [if_neg hv] at h ⊢
      by_cases hc : constantsSet.contains t = true
      · rw [if_pos hc] at h ⊢
        exact ih values _ results st res h
      · rw [if_neg hc] at h ⊢
        by_cases ho : isOpName t = true
        · rw [if_pos ho] at h ⊢
          by_cases hn : t = "NOT"
          · rw [if_pos hn] at h ⊢
            cases stack with
            | nil => cases h
            | cons top rest =>
              obtain ⟨ne, hres, hspec⟩ := ih values _ _ st res h
              refine ⟨("~" ++ top.1, !top.2) :: ne, ?_, ?_⟩
              · rw [hres]; simp
              · simp [hspec]
          · rw [if_neg hn] at h ⊢
            match stack, h with
            | [], h => cases h
            | [top], h => cases h
            | (bE, bV) :: (aE, aV) :: rest, h =>
              obtain ⟨ne, hres, hspec⟩ := ih values _ _ st res h
              refine ⟨(aE ++ " " ++ opGlyph t ++ " " ++ bE, applyBin t aV bV) :: ne, ?_, ?_⟩
              · rw [hres]; simp
              · simp [hspec]
        · rw [if_neg ho] at h
          cases h

/-- A variable token that the assignment does not bind forces the scan
into an error (at that token, or earlier). -/
theorem evalAux_missing_var :
    ∀ (ts : List String) (values stack results : List (String × Bool)) (v : String),
      v ∈ ts → variablesSet.contains v = true → values.lookup v = none →
      ∃ e, evalAux values ts stack results = .error e := by
  intro ts
  induction ts with
  | nil => intro values stack results v hmem _ _; cases hmem
  | cons t ts ih =>
    intro values stack results v hmem hvar hnone
    simp only [evalAux]
    rcases List.mem_cons.mp hmem with rfl | hmem'
    · rw [if_pos hvar, hnone]
      exact ⟨.keyError v, rfl⟩
    · by_cases hv : variablesSet.contains t = true
      · rw [if_pos hv]
        cases hl : values.lookup t with
        | none => exact ⟨.keyError t, rfl⟩
        | some b => exact ih values _ results v hmem' hvar hnone
      · rw [if_neg hv]
        by_cases hc : constantsSet.contains t = true
        · rw [if_pos hc]
          exact ih values _ results v hmem' hvar hnone
        · rw [if_neg hc]
          by_cases ho : isOpName t = true
          · rw [if_pos ho]
            by_cases hn : t = "NOT"
            · rw [if_pos hn]
              cases stack with
              | nil => exact ⟨.popEmpty, rfl⟩
              | cons top rest => exact ih values _ _ v hmem' hvar hnone
            · rw [if_neg hn]
              match stack with
              | [] => exact ⟨.popEmpty, rfl⟩
              | [top] => exact ⟨.popEmpty, rfl⟩
              | (bE, bV) :: (aE, aV) :: rest => exact ih values _ _ v hmem' hvar hnone
          · rw [if_neg ho]
            exact ⟨.unknownToken t, rfl⟩

/-- The evaluation scan projects onto the label-only walk: labels of
the stack and of the trace never depend on the assignment's values. -/
theorem evalAux_labelRun :
    ∀ (ts : List String) (values stack results st res : List (String × Bool)),
      evalAux values ts stack results = .ok (st, res) →
      labelRun ts (stack.map Prod.fst) (results.map Prod.fst) =
        some (st.map Prod.fst, res.map Prod.fst) := by
  intro ts
  induction ts with
  | nil =>
    intro values stack results st res h
    simp only [evalAux, Except.ok.injEq, Prod.mk.injEq] at h
    simp [labelRun, h.1, h.2]
  | cons t ts ih =>
    intro values stack results st res h
    simp only [evalAux] at h
    simp only [labelRun]
    by_cases hv : variablesSet.contains t = true
    · rw [if_pos hv] at h ⊢
      cases hl : values.lookup t with
      | none => rw [hl] at h; cases h
      | some b =>
        rw [hl] at h
        exact ih values _ results st res h
    · rw [if_neg hv] at h ⊢
      by_cases hc : constantsSet.contains t = true
      · rw [if_pos hc] at h ⊢
        exact ih values _ results st res h
      · rw [if_neg hc] at h ⊢
        by_cases ho : isOpName t = true
        · rw [if_pos ho] at h ⊢
          by_cases hn : t = "NOT"
          · rw [if_pos hn] at h ⊢
            cases stack with
            | nil => cases h
            | cons top rest =>
              have := ih values _ _ st res h
              simpa [List.map_append] using this
          · rw [if_neg hn] at h ⊢
            match stack, h with
            | [], h => cases h
            | [top], h => cases h
            | (bE, bV) :: (aE, aV) :: rest, h =>
              have := ih values _ _ st res h
              simpa [List.map_append] using this
        · rw [if_neg ho] at h
          cases h

/-- With no left parenthesis on the operator stack, the RPAREN loop
exhausts the stack and the closing `pop()` raises. -/
theorem popUntilLparen_no_lparen :
    ∀ (ops out : List String), "(" ∉ ops →
      popUntilLparen ops out = .error .popEmpty := by
  intro ops
  induction ops with
  | nil => intro out _; rfl
  | cons top rest ih =>
    intro out hmem
    have hne : ¬ top = "(" := by
      intro he; subst he; exact hmem (List.mem_cons_self _ _)
    simp only [popUntilLparen]
    rw [if_neg hne]
    exact ih _ (fun hm => hmem (List.mem_cons_of_mem _ hm))

/-- The RPAREN loop's only error is the empty-stack pop. -/
theorem popUntilLparen_error :
    ∀ (ops out : List String) (e : ConvErr),
      popUntilLparen ops out = .error e → e = .popEmpty := by
  intro ops
  induction ops with
  | nil => intro out e h; cases h; rfl
  | cons top rest ih =>
    intro out e h
    simp only [popUntilLparen] at h
    by_cases hp : top = "("
    · rw [if_pos hp] at h; cases h
    · rw [if_neg hp] at h; exact ih _ e h

/-- A parenthesis left on the stack after the token loop makes the
drain loop raise the mismatched-parentheses error. -/
theorem drainOps_paren :
    ∀ (ops out : List String), ("(" ∈ ops ∨ ")" ∈ ops) →
      drainOps ops out = .error .mismatched := by
  intro ops
  induction ops with
  | nil => intro out h; rcases h with h | h <;> cases h
  | cons top rest ih =>
    intro out h
    simp only [drainOps]
    by_cases hp : top = "(" ∨ top = ")"
    · rw [if_pos hp]
    · rw [if_neg hp]
      rcases h with h | h
      · rcases List.mem_cons.mp h with he | hm
        · exact absurd (Or.inl he.symm) hp
        · exact ih _ (Or.inl hm)
      · rcases List.mem_cons.mp h with he | hm
        · exact absurd (Or.inr he.symm) hp
        · exact ih _ (Or.inr hm)

/-- The drain loop's only error is the mismatched-parentheses one. -/
theorem drainOps_error :
    ∀ (ops out : List String) (e : ConvErr),
      drainOps ops out = .error e → e = .mismatched := by
  intro ops
  induction ops with
  | nil => intro out e h; cases h
  | cons top rest ih =>
    intro out e h
    simp only [drainOps] at h
    by_cases hp : top = "(" ∨ top = ")"
    · rw [if_pos hp] at h; cases h; rfl
    · rw [if_neg hp] at h; exact ih _ e h

/-- Every operator alternative tokenizes to a canonical token. -/
theorem opToken_canonical : ∀ lit ∈ operatorLits, opToken lit ∈ canonicalTokens := by
  decide

/-- Every variable letter tokenizes to a canonical token. -/
theorem varChar_canonical : ∀ c ∈ varChars, pyUpper (String.mk [c]) ∈ canonicalTokens := by
  decide

/-- Every token the tokenizer emits is canonical. -/
theorem tokenizeAux_canonical :
    ∀ (fuel : Nat) (cs : List Char) (ts : List String),
      tokenizeAux fuel cs = .ok ts → ∀ t ∈ ts, t ∈ canonicalTokens := by
  intro fuel
  induction fuel with
  | zero =>
    intro cs ts h t ht
    cases cs with
    | nil => simp only [tokenizeAux, Except.ok.injEq] at h; subst h; cases ht
    | cons c rest => cases h
  | succ fuel ih =>
    intro cs ts h t ht
    cases cs with
    | nil => simp only [tokenizeAux, Except.ok.injEq] at h; subst h; cases ht
    | cons c rest =>
      simp only [tokenizeAux] at h
      by_cases hlp : c = '('
      · rw [if_pos hlp] at h
        obtain ⟨ts', hts', rfl⟩ := except_map_ok h
        rcases List.mem_cons.mp ht with rfl | hm
        · decide
        · exact ih _ _ hts' t hm
      · rw [if_neg hlp] at h
        by_cases hrp : c = ')'
        · rw [if_pos hrp] at h
          obtain ⟨ts', hts', rfl⟩ := except_map_ok h
          rcases List.mem_cons.mp ht with rfl | hm
          · decide
          · exact ih _ _ hts' t hm
        · rw [if_neg hrp] at h
          cases hop : findOp (c :: rest) with
          | some lit =>
            rw [hop] at h
            obtain ⟨ts', hts', rfl⟩ := except_map_ok h
            rcases List.mem_cons.mp ht with rfl | hm
            · exact opToken_canonical lit (List.mem_of_find?_eq_some hop)
            · exact ih _ _ hts' t hm
          | none =>
            rw [hop] at h
            by_cases hvc : varChars.contains c = true
            · rw [if_pos hvc] at h
              obtain ⟨ts', hts', rfl⟩ := except_map_ok h
              rcases List.mem_cons.mp ht with rfl | hm
              · exact varChar_canonical c (List.mem_of_elem_eq_true hvc)
              · exact ih _ _ hts' t hm
            · rw [if_neg hvc] at h
              by_cases htr : litMatch "TRUE".toList (c :: rest) = true
              · rw [if_pos htr] at h
                obtain ⟨ts', hts', rfl⟩ := except_map_ok h
                rcases List.mem_cons.mp ht with rfl | hm
                · decide
                · exact ih _ _ hts' t hm
              · rw [if_neg htr] at h
                by_cases hfa : litMatch "FALSE".toList (c :: rest) = true
                · rw [if_pos hfa] at h
                  obtain ⟨ts', hts', rfl⟩ := except_map_ok h
                  rcases List.mem_cons.mp ht with rfl | hm
                  · decide
                  · exact ih _ _ hts' t hm
                · rw [if_neg hfa] at h
                  by_cases hws : pyIsSpace c = true
                  · rw [if_pos hws] at h
                    exact ih _ _ h t ht
                  · rw [if_neg hws] at h
                    cases h

/-- The precedence-pop loop preserves the stack and output alphabets:
it moves operator names from the stack to the output. -/
theorem popWhileOps_inv (token : String) :
    ∀ (ops out : List String),
      (∀ x ∈ ops, isOpName x = true ∨ x = "(") →
      (∀ x ∈ out, operandOrOp x = true) →
      (∀ x ∈ (popWhileOps token ops out).1, isOpName x = true ∨ x = "(") ∧
        (∀ x ∈ (popWhileOps token ops out).2, operandOrOp x = true) := by
  intro ops
  induction ops with
  | nil => intro out hops hout; exact ⟨hops, hout⟩
  | cons top rest ih =>
    intro out hops hout
    simp only [popWhileOps]
    by_cases hcond : isOpName top = true ∧
        ((assocOf token = Assoc.left ∧ precLevel token ≤ precLevel top) ∨
         (assocOf token = Assoc.right ∧ precLevel token < precLevel top))
    · rw [if_pos hcond]
      refine ih _ (fun x hx => hops x (List.mem_cons_of_mem _ hx)) ?_
      intro x hx
      rcases List.mem_append.mp hx with hx | hx
      · exact hout x hx
      · rcases List.mem_singleton.mp hx with rfl
        simp [operandOrOp, hcond.1]
    · rw [if_neg hcond]
      exact ⟨hops, hout⟩

/-- The RPAREN loop preserves the stack and output alphabets. -/
theorem popUntilLparen_inv :
    ∀ (ops out ops' out' : List String),
      popUntilLparen ops out = .ok (ops', out') →
      (∀ x ∈ ops, isOpName x = true ∨ x = "(") →
      (∀ x ∈ out, operandOrOp x = true) →
      (∀ x ∈ ops', isOpName x = true ∨ x = "(") ∧ (∀ x ∈ out', operandOrOp x = true) := by
  intro ops
  induction ops with
  | nil => intro out ops' out' h; cases h
  | cons top rest ih =>
    intro out ops' out' h hops hout
    simp only [popUntilLparen] at h
    by_cases hp : top = "("
    · rw [if_pos hp] at h
      cases h
      exact ⟨fun x hx => hops x (List.mem_cons_of_mem _ hx), hout⟩
    · rw [if_neg hp] at h
      refine ih _ _ _ h (fun x hx => hops x (List.mem_cons_of_mem _ hx)) ?_
      intro x hx
      rcases List.mem_append.mp hx with hx | hx
      · exact hout x hx
      · rcases List.mem_singleton.mp hx with rfl
        rcases hops x (List.mem_cons_self _ _) with hx' | hx'
        · simp [operandOrOp, hx']
        · exact absurd hx' hp

/-- A successful drain pours only operator names into the output. -/
theorem drainOps_inv :
    ∀ (ops out out' : List String), drainOps ops out = .ok out' →
      (∀ x ∈ ops, isOpName x = true ∨ x = "(") →
      (∀ x ∈ out, operandOrOp x = true) →
      ∀ x ∈ out', operandOrOp x = true := by
  intro ops
  induction ops with
  | nil =>
    intro out out' h _ hout
    cases h
    exact hout
  | cons top rest ih =>
    intro out out' h hops hout
    simp only [drainOps] at h
    by_cases hp : top = "(" ∨ top = ")"
    · rw [if_pos hp] at h; cases h
    · rw [if_neg hp] at h
      refine ih _ _ h (fun x hx => hops x (List.mem_cons_of_mem _ hx)) ?_
      intro x hx
      rcases List.mem_append.mp hx with hx | hx
      · exact hout x hx
      · rcases List.mem_singleton.mp hx with rfl
        rcases hops x (List.mem_cons_self _ _) with hx' | hx'
        · simp [operandOrOp, hx']
        · exact absurd (Or.inl hx') hp

/-- The token loop preserves the stack and output alphabets. -/
theorem convertAux_inv :
    ∀ (ts ops out ops' out' : List String),
      convertAux ts ops out = .ok (ops', out') →
      (∀ x ∈ ops, isOpName x = true ∨ x = "(") →
      (∀ x ∈ out, operandOrOp x = true) →
      (∀ x ∈ ops', isOpName x = true ∨ x = "(") ∧ (∀ x ∈ out', operandOrOp x = true) := by
  intro ts
  induction ts with
  | nil =>
    intro ops out ops' out' h hops hout
    simp only [convertAux, Except.ok.injEq, Prod.mk.injEq] at h
    rw [← h.1, ← h.2]
    exact ⟨hops, hout⟩
  | cons t ts ih =>
    intro ops out ops' out' h hops hout
    simp only [convertAux] at h
    by_cases hvc : (variablesSet.contains t || constantsSet.contains t) = true
    · rw [if_pos hvc] at h
      refine ih _ _ _ _ h hops ?_
      intro x hx
      rcases List.mem_append.mp hx with hx | hx
      · exact hout x hx
      · rcases List.mem_singleton.mp hx with rfl
        simp only [operandOrOp, hvc, Bool.true_or]
    · rw [if_neg hvc] at h
      by_cases ho : isOpName t = true
      · rw [if_pos ho] at h
        have hp := popWhileOps_inv t ops out hops hout
        refine ih _ _ _ _ h ?_ hp.2
        intro x hx
        rcases List.mem_cons.mp hx with rfl | hx
        · exact Or.inl ho
        · exact hp.1 x hx
      · rw [if_neg ho] at h
        by_cases hl : t = "("
        · rw [if_pos hl] at h
          refine ih _ _ _ _ h ?_ hout
          intro x hx
          rcases List.mem_cons.mp hx with rfl | hx
          · exact Or.inr rfl
          · exact hops x hx
        · rw [if_neg hl] at h
          by_cases hr : t = ")"
          · rw [if_pos hr] at h
            cases hpu : popUntilLparen ops out with
            | ok pr =>
              rw [hpu] at h
              have := popUntilLparen_inv ops out pr.1 pr.2 hpu hops hout
              exact ih _ _ _ _ h this.1 this.2
            | error e => rw [hpu] at h; cases h
          · rw [if_neg hr] at h
            cases h

/-- Every token of a successfully converted Reverse-Polish sequence is
an operand or an operator name. -/
theorem convert_ok_alphabet :
    ∀ (ts rpn : List String), convertToRpn ts = .ok rpn →
      ∀ x ∈ rpn, operandOrOp x = true := by
  intro ts rpn h
  unfold convertToRpn at h
  cases hca : convertAux ts [] [] with
  | error e => rw [hca] at h; cases h
  | ok pr =>
    rw [hca] at h
    have hinv := convertAux_inv ts [] [] pr.1 pr.2 hca
      (fun x hx => absurd hx (List.not_mem_nil x)) (fun x hx => absurd hx (List.not_mem_nil x))
    exact drainOps_inv pr.1 pr.2 rpn h hinv.1 hinv.2

/-- Every canonical token is handled by one of the four live branches
of the token loop. -/
theorem canonical_branch :
    ∀ t ∈ canonicalTokens,
      (variablesSet.contains t || constantsSet.contains t) = true ∨
        isOpName t = true ∨ t = "(" ∨ t = ")" := by
  decide

/-- On canonical tokens the token loop never reaches its unknown-token
branch. -/
theorem convertAux_no_unknown :
    ∀ (ts ops out : List String), (∀ t ∈ ts, t ∈ canonicalTokens) →
      ∀ u, convertAux ts ops out ≠ .error (.unknownToken u) := by
  intro ts
  induction ts with
  | nil => intro ops out _ u h; cases h
  | cons t ts ih =>
    intro ops out hcanon u h
    simp only [convertAux] at h
    by_cases hvc : (variablesSet.contains t || constantsSet.contains t) = true
    · rw [if_pos hvc] at h
      exact ih _ _ (fun x hx => hcanon x (List.mem_cons_of_mem _ hx)) u h
    · rw [if_neg hvc] at h
      by_cases ho : isOpName t = true
      · rw [if_pos ho] at h
        exact ih _ _ (fun x hx => hcanon x (List.mem_cons_of_mem _ hx)) u h
      · rw [if_neg ho] at h
        by_cases hl : t = "("
        · rw [if_pos hl] at h
          exact ih _ _ (fun x hx => hcanon x (List.mem_cons_of_mem _ hx)) u h
        · rw [if_neg hl] at h
          by_cases hr : t = ")"
          · rw [if_pos hr] at h
            cases hpu : popUntilLparen ops out with
            | ok pr =>
              rw [hpu] at h
              exact ih _ _ (fun x hx => hcanon x (List.mem_cons_of_mem _ hx)) u h
            | error e =>
              rw [hpu] at h
              cases h
              exact ConvErr.noConfusion (popUntilLparen_error ops out _ hpu)
          · rw [if_neg hr] at h
            rcases canonical_branch t (hcanon t (List.mem_cons_self _ _)) with hx | hx | hx | hx
            · exact absurd hx hvc
            · exact absurd hx ho
            · exact absurd hx hl
            · exact absurd hx hr

/-- On operand/operator tokens the evaluation scan never reaches its
unknown-token branch. -/
theorem evalAux_no_unknown :
    ∀ (ts : List String) (values stack results : List (String × Bool)),
      (∀ t ∈ ts, operandOrOp t = true) →
      ∀ u, evalAux values ts stack results ≠ .error (.unknownToken u) := by
  intro ts
  induction ts with
  | nil => intro values stack results _ u h; cases h
  | cons t ts ih =>
    intro values stack results hall u h
    simp only [evalAux] at h
    by_cases hv : variablesSet.contains t = true
    · rw [if_pos hv] at h
      cases hl : values.lookup t with
      | none => rw [hl] at h; cases h
      | some b =>
        rw [hl] at h
        exact ih values _ results (fun x hx => hall x (List.mem_cons_of_mem _ hx)) u h
    · rw [if_neg hv] at h
      by_cases hc : constantsSet.contains t = true
      · rw [if_pos hc] at h
        exact ih values _ results (fun x hx => hall x (List.mem_cons_of_mem _ hx)) u h
      · rw [if_neg hc] at h
        by_cases ho : isOpName t = true
        · rw [if_pos ho] at h
          by_cases hn : t = "NOT"
          · rw [if_pos hn] at h
            cases stack with
            | nil => cases h
            | cons top rest =>
              exact ih values _ _ (fun x hx => hall x (List.mem_cons_of_mem _ hx)) u h
          · rw [if_neg hn] at h
            match stack, h with
            | [], h => cases h
            | [top], h => cases h
            | (bE, bV) :: (aE, aV) :: rest, h =>
              exact ih values _ _ (fun x hx => hall x (List.mem_cons_of_mem _ hx)) u h
        · rw [if_neg ho] at h
          have hoo := hall t (List.mem_cons_self _ _)
          unfold operandOrOp at hoo
          cases h1 : variablesSet.contains t with
          | true => exact hv h1
          | false =>
            cases h2 : constantsSet.contains t with
            | true => exact hc h2
            | false =>
              cases h3 : isOpName t with
              | true => exact ho h3
              | false => rw [h1, h2, h3] at hoo; simp at hoo

/-- The assignment product has `2 ^ k` elements. -/
theorem boolProd_length : ∀ k : Nat, (boolProd k).length = 2 ^ k := by
  intro k
  induction k with
  | zero => rfl
  | succ n ih =>
    simp only [boolProd, List.length_append, List.length_map, ih]
    have h2 : (2 : Nat) ^ (n + 1) = 2 ^ n * 2 := pow_succ 2 n
    omega

/-- The assignment product is never empty: with zero variables it still
holds the single empty assignment. -/
theorem boolProd_ne_nil (k : Nat) : boolProd k ≠ [] := by
  intro h
  have hl := boolProd_length k
  rw [h] at hl
  have hp : 0 < 2 ^ k := Nat.two_pow_pos k
  simp at hl
  omega

/-- Every tuple of the assignment product has one value per variable. -/
theorem boolProd_mem_length : ∀ (k : Nat) (c : List Bool), c ∈ boolProd k → c.length = k := by
  intro k
  induction k with
  | zero =>
    intro c hc
    simp only [boolProd, List.mem_singleton] at hc
    simp [hc]
  | succ n ih =>
    intro c hc
    simp only [boolProd] at hc
    rcases List.mem_append.mp hc with hc | hc <;>
      obtain ⟨t, ht, rfl⟩ := List.mem_map.mp hc <;>
      simp [ih t ht]

/-- Bits of a number below `2 ^ k` gain a leading false. -/
theorem natBits_low : ∀ (k i : Nat), i < 2 ^ k → natBits (k + 1) i = false :: natBits k i := by
  intro k
  induction k with
  | zero =>
    intro i hi
    have : i = 0 := by omega
    subst this
    rfl
  | succ n ih =>
    intro i hi
    have h2 : (2 : Nat) ^ (n + 1) = 2 ^ n * 2 := pow_succ 2 n
    have hdiv : i / 2 < 2 ^ n := by omega
    calc natBits (n + 2) i = natBits (n + 1) (i / 2) ++ [i % 2 == 1] := rfl
      _ = (false :: natBits n (i / 2)) ++ [i % 2 == 1] := by rw [ih _ hdiv]
      _ = false :: natBits (n + 1) i := rfl

/-- Bits of `2 ^ k + i` for `i` below `2 ^ k` gain a leading true. -/
theorem natBits_high : ∀ (k i : Nat), i < 2 ^ k →
    natBits (k + 1) (2 ^ k + i) = true :: natBits k i := by
  intro k
  induction k with
  | zero =>
    intro i hi
    have : i = 0 := by omega
    subst this
    rfl
  | succ n ih =>
    intro i hi
    have h2 : (2 : Nat) ^ (n + 1) = 2 ^ n * 2 := pow_succ 2 n
    have e1 : (2 ^ (n + 1) + i) / 2 = 2 ^ n + i / 2 := by omega
    have e2 : (2 ^ (n + 1) + i) % 2 = i % 2 := by omega
    have hdiv : i / 2 < 2 ^ n := by omega
    calc natBits (n + 2) (2 ^ (n + 1) + i)
        = natBits (n + 1) ((2 ^ (n + 1) + i) / 2) ++ [(2 ^ (n + 1) + i) % 2 == 1] := rfl
      _ = natBits (n + 1) (2 ^ n + i / 2) ++ [i % 2 == 1] := by rw [e1, e2]
      _ = (true :: natBits n (i / 2)) ++ [i % 2 == 1] := by rw [ih _ hdiv]
      _ = true :: natBits (n + 1) i := rfl

/-- One unfolding of the spec-side counting enumeration. -/
theorem countingOrder_succ (n : Nat) :
    countingOrder (n + 1) =
      (countingOrder n).map (fun t => false :: t) ++
        (countingOrder n).map (fun t => true :: t) := by
  unfold countingOrder
  have h2 : (2 : Nat) ^ (n + 1) = 2 ^ n + 2 ^ n := by
    have := pow_succ 2 n
    omega
  rw [h2, List.range_add, List.map_append]
  simp only [List.map_map]
  congr 1
  · apply List.map_congr_left
    intro i hi
    simp only [Function.comp_apply]
    exact natBits_low n i (List.mem_range.mp hi)
  · apply List.map_congr_left
    intro i hi
    simp only [Function.comp_apply]
    exact natBits_high n i (List.mem_range.mp hi)

/-- Refinement of the enumeration order: the embedded
`itertools.product([False, True], repeat=k)` is exactly the spec's
counting order, last variable fastest. -/
theorem boolProd_eq_countingOrder : ∀ k : Nat, boolProd k = countingOrder k := by
  intro k
  induction k with
  | zero => rfl
  | succ n ih =>
    rw [countingOrder_succ, ← ih]
    rfl

/-- Association-list lookup skips a head with a different key. -/
theorem lookup_cons_ne {v u : String} {b : Bool} {l : List (String × Bool)}
    (h : u ≠ v) : ((v, b) :: l).lookup u = l.lookup u := by
  have hb : (u == v) = false := beq_eq_false_iff_ne.mpr h
  simp [List.lookup, hb]

/-- `lookupAll` only consults the keys it is asked for. -/
theorem lookupAll_congr : ∀ (vs : List String) (l₁ l₂ : List (String × Bool)),
    (∀ u ∈ vs, l₁.lookup u = l₂.lookup u) → lookupAll l₁ vs = lookupAll l₂ vs := by
  intro vs
  induction vs with
  | nil => intro l₁ l₂ _; rfl
  | cons v vs ih =>
    intro l₁ l₂ hh
    simp only [lookupAll]
    rw [hh v (List.mem_cons_self _ _),
      ih l₁ l₂ (fun u hu => hh u (List.mem_cons_of_mem _ hu))]

/-- Reading the variables back out of the zipped assignment returns the
original value tuple. -/
theorem lookupAll_zip : ∀ (vs : List String) (c : List Bool),
    vs.Nodup → c.length = vs.length → lookupAll (vs.zip c) vs = some c := by
  intro vs
  induction vs with
  | nil =>
    intro c _ hlen
    have : c = [] := List.length_eq_zero.mp (by simpa using hlen)
    subst this
    rfl
  | cons v vs ih =>
    intro c hnd hlen
    cases c with
    | nil => simp at hlen
    | cons b bs =>
      have hnd' := List.nodup_cons.mp hnd
      simp only [List.zip_cons_cons, lookupAll]
      have hself : (((v, b) :: vs.zip bs).lookup v) = some b := by
        simp [List.lookup]
      rw [hself]
      have hcongr : lookupAll ((v, b) :: vs.zip bs) vs = lookupAll (vs.zip bs) vs :=
        lookupAll_congr vs _ _ (fun u hu => lookup_cons_ne (fun he => hnd'.1 (he ▸ hu)))
      rw [hcongr, ih bs hnd'.2 (by simpa using hlen)]
      rfl

/-- A row-loop iteration fails only with the row error or the row
crash. -/
theorem rowEval_error_shape :
    ∀ (tokens vars : List String) (combo : List Bool) (out : TableOutcome),
      rowEval tokens vars combo = .error out →
      out = .rowError ∨ out = .rowCrash := by
  intro tokens vars combo out h
  unfold rowEval at h
  cases hcv : convertToRpn tokens with
  | error e =>
    rw [hcv] at h
    have h2 : (Except.error (if convErrIsValueError e = true then TableOutcome.rowError
        else TableOutcome.rowCrash) : Except TableOutcome (Bool × List (String × Bool))) =
        Except.error out := h
    injection h2 with h3
    by_cases hb : convErrIsValueError e = true
    · rw [if_pos hb] at h3; exact Or.inl h3.symm
    · rw [if_neg hb] at h3; exact Or.inr h3.symm
  | ok rpn =>
    rw [hcv] at h
    have h2 : rowEval2 vars combo rpn = .error out := h
    unfold rowEval2 at h2
    cases hev : evalRpnExpr rpn (vars.zip combo) with
    | error e =>
      rw [hev] at h2
      have h3 : (Except.error (if evalErrIsValueError e = true then TableOutcome.rowError
          else TableOutcome.rowCrash) : Except TableOutcome (Bool × List (String × Bool))) =
          Except.error out := h2
      injection h3 with h4
      by_cases hb : evalErrIsValueError e = true
      · rw [if_pos hb] at h4; exact Or.inl h4.symm
      · rw [if_neg hb] at h4; exact Or.inr h4.symm
    | ok res =>
      rw [hev] at h2
      have h3 : (Except.ok res : Except TableOutcome (Bool × List (String × Bool))) =
          Except.error out := h2
      cases h3

/-- A successful row-loop iteration computes exactly the row's final
value. -/
theorem rowEval_ok_rowFinal :
    ∀ (tokens vars : List String) (combo : List Bool) (fr : Bool)
      (inter : List (String × Bool)),
      rowEval tokens vars combo = .ok (fr, inter) →
      rowFinal tokens vars combo = some fr := by
  intro tokens vars combo fr inter h
  unfold rowEval at h
  cases hcv : convertToRpn tokens with
  | error e =>
    rw [hcv] at h
    have h2 : (Except.error (if convErrIsValueError e = true then TableOutcome.rowError
        else TableOutcome.rowCrash) : Except TableOutcome (Bool × List (String × Bool))) =
        Except.ok (fr, inter) := h
    cases h2
  | ok rpn =>
    rw [hcv] at h
    have h2 : rowEval2 vars combo rpn = .ok (fr, inter) := h
    unfold rowEval2 at h2
    unfold rowFinal
    rw [hcv]
    show rowFinal2 vars combo rpn = some fr
    unfold rowFinal2
    cases hev : evalRpnExpr rpn (vars.zip combo) with
    | error e =>
      rw [hev] at h2
      have h3 : (Except.error (if evalErrIsValueError e = true then TableOutcome.rowError
          else TableOutcome.rowCrash) : Except TableOutcome (Bool × List (String × Bool))) =
          Except.ok (fr, inter) := h2
      cases h3
    | ok res =>
      rw [hev] at h2
      have h3 : (Except.ok res : Except TableOutcome (Bool × List (String × Bool))) =
          Except.ok (fr, inter) := h2
      injection h3 with h4
      subst h4
      rfl

/-- The row loop can only end in a table, a row error, or a row crash;
it never reports the no-variables condition. -/
theorem rowLoopAux_ne_noVariables :
    ∀ (tokens vars subs : List String) (combos rowsAcc : List (List Bool)) (taut : Bool),
      rowLoopAux tokens vars subs combos rowsAcc taut ≠ .noVariables := by
  intro tokens vars subs combos
  induction combos with
  | nil => intro rowsAcc taut h; cases h
  | cons c cs ih =>
    intro rowsAcc taut h
    simp only [rowLoopAux] at h
    cases hre : rowEval tokens vars c with
    | error out =>
      rw [hre] at h
      have h2 : out = TableOutcome.noVariables := h
      rcases rowEval_error_shape _ _ _ _ hre with rfl | rfl <;> cases h2
    | ok res =>
      obtain ⟨fr, inter⟩ := res
      rw [hre] at h
      cases hla : lookupAll (vars.zip c) vars with
      | none =>
        rw [hla] at h
        have h2 : TableOutcome.rowCrash = TableOutcome.noVariables := h
        cases h2
      | some varVals =>
        rw [hla] at h
        exact ih _ _ h

/-- Shape of a successful row loop: the headers are the variables
followed by the sub-expression headers, and the produced rows start
with exactly the enumerated value tuples. -/
theorem rowLoopAux_table :
    ∀ (tokens vars subs : List String) (combos rowsAcc : List (List Bool)) (taut : Bool)
      (hdrs : List String) (rows : List (List Bool)) (tf : Bool),
      vars.Nodup →
      (∀ c ∈ combos, c.length = vars.length) →
      rowLoopAux tokens vars subs combos rowsAcc taut = .table hdrs rows tf →
      hdrs = vars ++ subs ∧
        ∃ rows', rows = rowsAcc ++ rows' ∧ rows'.map (List.take vars.length) = combos := by
  intro tokens vars subs combos
  induction combos with
  | nil =>
    intro rowsAcc taut hdrs rows tf _ _ h
    cases h
    exact ⟨rfl, [], by simp⟩
  | cons c cs ih =>
    intro rowsAcc taut hdrs rows tf hnd hlen h
    simp only [rowLoopAux] at h
    cases hre : rowEval tokens vars c with
    | error out =>
      rw [hre] at h
      have h2 : out = TableOutcome.table hdrs rows tf := h
      rcases rowEval_error_shape _ _ _ _ hre with rfl | rfl <;> cases h2
    | ok res =>
      obtain ⟨fr, inter⟩ := res
      rw [hre] at h
      cases hla : lookupAll (vars.zip c) vars with
      | none =>
        rw [hla] at h
        have h2 : TableOutcome.rowCrash = TableOutcome.table hdrs rows tf := h
        cases h2
      | some varVals =>
        rw [hla] at h
        have h' : rowLoopAux tokens vars subs cs
            (rowsAcc ++ [varVals ++ subs.map (fun s => (lookupLast inter s).getD false)])
            (if fr = true then taut else false) = TableOutcome.table hdrs rows tf := h
        have hc0 : c.length = vars.length := hlen c (List.mem_cons_self _ _)
        have hvv : varVals = c := by
          have h2 := lookupAll_zip vars c hnd hc0
          rw [hla] at h2
          exact Option.some.inj h2
        obtain ⟨hh, rows'', hra, hmap⟩ :=
          ih _ _ hdrs rows tf hnd (fun x hx => hlen x (List.mem_cons_of_mem _ hx)) h'
        subst hvv
        refine ⟨hh, (varVals ++ subs.map (fun s => (lookupLast inter s).getD false)) :: rows'',
          ?_, ?_⟩
        · rw [hra]
          simp [List.append_assoc]
        · simp only [List.map_cons, hmap]
          congr 1
          rw [← hc0, List.take_left]

/-- The tautology flag a finished row loop returns is true exactly when
it started true and every remaining row's final value is true. -/
theorem rowLoopAux_taut :
    ∀ (tokens vars subs : List String) (combos rowsAcc : List (List Bool)) (taut : Bool)
      (hdrs : List String) (rows : List (List Bool)) (tf : Bool),
      rowLoopAux tokens vars subs combos rowsAcc taut = .table hdrs rows tf →
      (tf = true ↔ (taut = true ∧ ∀ c ∈ combos, rowFinal tokens vars c = some true)) := by
  intro tokens vars subs combos
  induction combos with
  | nil =>
    intro rowsAcc taut hdrs rows tf h
    cases h
    simp
  | cons c cs ih =>
    intro rowsAcc taut hdrs rows tf h
    simp only [rowLoopAux] at h
    cases hre : rowEval tokens vars c with
    | error out =>
      rw [hre] at h
      have h2 : out = TableOutcome.table hdrs rows tf := h
      rcases rowEval_error_shape _ _ _ _ hre with rfl | rfl <;> cases h2
    | ok res =>
      obtain ⟨fr, inter⟩ := res
      rw [hre] at h
      cases hla : lookupAll (vars.zip c) vars with
      | none =>
        rw [hla] at h
        have h2 : TableOutcome.rowCrash = TableOutcome.table hdrs rows tf := h
        cases h2
      | some varVals =>
        rw [hla] at h
        have h' : rowLoopAux tokens vars subs cs
            (rowsAcc ++ [varVals ++ subs.map (fun s => (lookupLast inter s).getD false)])
            (if fr = true then taut else false) = TableOutcome.table hdrs rows tf := h
        have ihh := ih _ _ hdrs rows tf h'
        have hrf : rowFinal tokens vars c = some fr := rowEval_ok_rowFinal _ _ _ _ _ hre
        rw [ihh, List.forall_mem_cons, hrf]
        cases fr <;> simp

/-- The first-row evaluation stage can only yield the evaluation-error
report, the header crash, or a row-loop outcome; never the
no-variables report. -/
theorem buildTable2_ne_noVariables :
    ∀ (tokens vars : List String) (combos : List (List Bool)) (rpn : List String),
      buildTable2 tokens vars combos rpn ≠ .noVariables := by
  intro tokens vars combos rpn h
  unfold buildTable2 at h
  cases hev : evalRpnExpr rpn (vars.zip (combos.headD [])) with
  | error e =>
    rw [hev] at h
    have h2 : TableOutcome.evalError = TableOutcome.noVariables := h
    cases h2
  | ok res =>
    obtain ⟨fe, subs⟩ := res
    rw [hev] at h
    have h2 : (if (vars ++ dedupFirst (subs.map Prod.fst)).isEmpty = true
        then TableOutcome.headerCrash
        else rowLoopAux tokens vars (dedupFirst (subs.map Prod.fst)) combos [] true) =
        TableOutcome.noVariables := h
    by_cases hie : (vars ++ dedupFirst (subs.map Prod.fst)).isEmpty = true
    · rw [if_pos hie] at h2; cases h2
    · rw [if_neg hie] at h2
      exact rowLoopAux_ne_noVariables _ _ _ _ _ _ h2

/-- The no-variables branch of `create_truth_table` is dead code: the
assignment product is never empty, so the branch is unreachable. -/
theorem buildTable_ne_noVariables :
    ∀ tokens : List String, buildTable tokens ≠ .noVariables := by
  intro tokens h
  simp only [buildTable] at h
  have hne : ¬ ((boolProd (sortedVars tokens).length).isEmpty = true) := by
    intro hh
    exact boolProd_ne_nil _ (List.isEmpty_iff.mp hh)
  rw [if_neg hne] at h
  cases hcv : convertToRpn tokens with
  | error e =>
    rw [hcv] at h
    have h2 : TableOutcome.evalError = TableOutcome.noVariables := h
    cases h2
  | ok rpn =>
    rw [hcv] at h
    exact buildTable2_ne_noVariables _ _ _ _ h

/-- `create_truth_table` never reports the no-variables condition. -/
theorem createTruthTable_ne_noVariables :
    ∀ e : String, createTruthTable e ≠ .noVariables := by
  intro e h
  unfold createTruthTable at h
  cases htok : tokenizeExpr e with
  | error le =>
    rw [htok] at h
    have h2 : TableOutcome.lexCrash le = TableOutcome.noVariables := h
    cases h2
  | ok tokens =>
    rw [htok] at h
    exact buildTable_ne_noVariables tokens h

/-- After a successful tokenization, the table outcome is the
build-table outcome of the token list. -/
theorem createTruthTable_ok_buildTable :
    ∀ (expr : String) (tokens : List String), tokenizeExpr expr = .ok tokens →
      createTruthTable expr = buildTable tokens := by
  intro expr tokens htok
  unfold createTruthTable
  rw [htok]

/-- A produced table passes through a successful conversion. -/
theorem buildTable_table_inv :
    ∀ (tokens hdrs : List String) (rows : List (List Bool)) (tf : Bool),
      buildTable tokens = .table hdrs rows tf →
      ∃ rpn, convertToRpn tokens = .ok rpn ∧
        buildTable2 tokens (sortedVars tokens) (boolProd (sortedVars tokens).length) rpn =
          .table hdrs rows tf := by
  intro tokens hdrs rows tf h
  simp only [buildTable] at h
  have hne : ¬ ((boolProd (sortedVars tokens).length).isEmpty = true) := by
    intro hh
    exact boolProd_ne_nil _ (List.isEmpty_iff.mp hh)
  rw [if_neg hne] at h
  cases hcv : convertToRpn tokens with
  | error e =>
    rw [hcv] at h
    have h2 : TableOutcome.evalError = TableOutcome.table hdrs rows tf := h
    cases h2
  | ok rpn =>
    rw [hcv] at h
    exact ⟨rpn, rfl, h⟩

/-- A produced table passes through a successful first evaluation and
the row loop, with the headers discovered from the first trace. -/
theorem buildTable2_table_inv :
    ∀ (tokens vars : List String) (combos : List (List Bool)) (rpn : List String)
      (hdrs : List String) (rows : List (List Bool)) (tf : Bool),
      buildTable2 tokens vars combos rpn = .table hdrs rows tf →
      ∃ fe subs, evalRpnExpr rpn (vars.zip (combos.headD [])) = .ok (fe, subs) ∧
        rowLoopAux tokens vars (dedupFirst (subs.map Prod.fst)) combos [] true =
          .table hdrs rows tf := by
  intro tokens vars combos rpn hdrs rows tf h
  unfold buildTable2 at h
  cases hev : evalRpnExpr rpn (vars.zip (combos.headD [])) with
  | error e =>
    rw [hev] at h
    have h2 : TableOutcome.evalError = TableOutcome.table hdrs rows tf := h
    cases h2
  | ok res =>
    obtain ⟨fe, subs⟩ := res
    rw [hev] at h
    have h2 : (if (vars ++ dedupFirst (subs.map Prod.fst)).isEmpty = true
        then TableOutcome.headerCrash
        else rowLoopAux tokens vars (dedupFirst (subs.map Prod.fst)) combos [] true) =
        TableOutcome.table hdrs rows tf := h
    by_cases hie : (vars ++ dedupFirst (subs.map Prod.fst)).isEmpty = true
    · rw [if_pos hie] at h2; cases h2
    · rw [if_neg hie] at h2
      exact ⟨fe, subs, rfl, h2⟩

/-- The referenced-variable list is alphabetically sorted. -/
theorem sortedVars_sorted :
    ∀ tokens : List String, List.Pairwise (fun a b : String => a < b) (sortedVars tokens) := by
  intro tokens
  have hp : List.Pairwise (fun a b : String => a < b) variablesSet := by
    simp [variablesSet, String.lt_iff_toList_lt]
    decide
  exact hp.filter _

/-- The referenced-variable list has no duplicates. -/
theorem sortedVars_nodup : ∀ tokens : List String, (sortedVars tokens).Nodup := by
  intro tokens
  have hp : variablesSet.Nodup := by decide
  exact hp.filter _

/-- Success of the full evaluator means the scan ended with exactly one
stack entry carrying the returned value and trace. -/
theorem evalRpnExpr_ok_evalAux :
    ∀ (rpn : List String) (values : List (String × Bool)) (b : Bool)
      (tr : List (String × Bool)),
      evalRpnExpr rpn values = .ok (b, tr) →
      ∃ entry, evalAux values rpn [] [] = .ok ([entry], tr) ∧ entry.2 = b := by
  intro rpn values b tr h
  unfold evalRpnExpr at h
  cases hea : evalAux values rpn [] [] with
  | error e =>
    rw [hea] at h
    have h2 : (Except.error e : Except EvalErr (Bool × List (String × Bool))) = .ok (b, tr) := h
    cases h2
  | ok pr =>
    obtain ⟨stack, results⟩ := pr
    rw [hea] at h
    cases stack with
    | nil =>
      have h2 : (Except.error EvalErr.invalidRpn :
          Except EvalErr (Bool × List (String × Bool))) = .ok (b, tr) := h
      cases h2
    | cons entry rest =>
      cases rest with
      | nil =>
        have h2 : (Except.ok (entry.2, results) :
            Except EvalErr (Bool × List (String × Bool))) = .ok (b, tr) := h
        injection h2 with h3
        rw [Prod.mk.injEq] at h3
        refine ⟨entry, ?_, h3.1⟩
        rw [h3.2]
      | cons e2 rest2 =>
        have h2 : (Except.error EvalErr.invalidRpn :
            Except EvalErr (Bool × List (String × Bool))) = .ok (b, tr) := h
        cases h2

/-! ## Claims -/

/-- Claim C1, counterexample: on `"P OR Q AND R"` the conversion yields
the Reverse-Polish sequence `P Q OR R AND`, which applies OR to P and Q
first and AND last — not the claimed `P Q R AND OR`.  Under
P = Q = true, R = false the result is false, while the claimed grouping
`P OR (Q AND R)` would give true. -/
theorem claim_C1_counterexample :
    tokenizeExpr "P OR Q AND R" = .ok ["P", "OR", "Q", "AND", "R"] ∧
    convertToRpn ["P", "OR", "Q", "AND", "R"] = .ok ["P", "Q", "OR", "R", "AND"] ∧
    (["P", "Q", "OR", "R", "AND"] : List String) ≠ ["P", "Q", "R", "AND", "OR"] ∧
    evalRpnExpr ["P", "Q", "OR", "R", "AND"] [("P", true), ("Q", true), ("R", false)] =
      .ok (false, [("P v Q", true), ("P v Q ^ R", false)]) :=
  ⟨rfl, rfl, by decide, rfl⟩

/-- Claim C1, amended: because AND and OR share precedence 2 and all
binary operators are left-associative, `"P OR Q AND R"` groups as
`(P OR Q) AND R`: the converted sequence applies OR first and AND last,
and evaluates to `(p || q) && r` under every assignment. -/
theorem claim_C1_amended :
    tokenizeExpr "P OR Q AND R" = .ok ["P", "OR", "Q", "AND", "R"] ∧
    convertToRpn ["P", "OR", "Q", "AND", "R"] = .ok ["P", "Q", "OR", "R", "AND"] ∧
    ∀ p q r : Bool,
      (evalRpnExpr ["P", "Q", "OR", "R", "AND"] [("P", p), ("Q", q), ("R", r)]).map
        Prod.fst = .ok ((p || q) && r) := by
  refine ⟨rfl, rfl, ?_⟩
  intro p q r
  cases p <;> cases q <;> cases r <;> rfl

/-- Claim C1, witness: the amended semantics at P = Q = true,
R = false. -/
theorem claim_C1_witness :
    (evalRpnExpr ["P", "Q", "OR", "R", "AND"]
      [("P", true), ("Q", true), ("R", false)]).map Prod.fst = .ok false :=
  claim_C1_amended.2.2 true true false

/-- Claim C2, counterexample: evaluating the single-operand sequence
`["P"]` pushes one operand but returns an empty trace — operand pushes
are never appended to the results list. -/
theorem claim_C2_counterexample :
    evalRpnExpr ["P"] [("P", true)] = .ok (true, []) ∧
    (["P"].filter (fun t => variablesSet.contains t || constantsSet.contains t)).length = 1 :=
  ⟨rfl, rfl⟩

/-- Claim C2, amended: the trace of a successful evaluation consists of
exactly the operator-application (label, value) pairs in evaluation
order — it equals the output of the reference recording discipline
`specScan`, which emits one pair at each operator application and
nothing for operand tokens — and consequently its length is the number
of operator tokens. -/
theorem claim_C2_amended :
    ∀ (rpn : List String) (values : List (String × Bool)) (b : Bool)
      (tr : List (String × Bool)),
      evalRpnExpr rpn values = .ok (b, tr) →
      (∃ entry, specScan values rpn [] = some ([entry], tr)) ∧
      tr.length = opCount rpn := by
  intro rpn values b tr h
  obtain ⟨entry, hea, _⟩ := evalRpnExpr_ok_evalAux rpn values b tr h
  constructor
  · obtain ⟨ne, hres, hspec⟩ := evalAux_specScan rpn values [] [] [entry] tr hea
    rw [List.nil_append] at hres
    subst hres
    exact ⟨entry, hspec⟩
  · simpa using evalAux_ok_trace_length rpn values [] [] [entry] tr hea

/-- Claim C2, witness: the amended trace characterization at the
sequence `P NOT` — the trace is the one NOT-application pair. -/
theorem claim_C2_witness :
    (∃ entry, specScan [("P", true)] ["P", "NOT"] [] = some ([entry], [("~P", false)])) ∧
    ([("~P", false)] : List (String × Bool)).length = opCount ["P", "NOT"] :=
  claim_C2_amended ["P", "NOT"] [("P", true)] false [("~P", false)] rfl

/-- Claim C3 (code bug): the no-variables report is dead code — the
assignment product over zero variables is the one-element list holding
the empty assignment, so `if not combinations` never fires.  On the
variable-free input `"TRUE AND FALSE"` the generator emits a one-row
table instead of reporting, and on `"TRUE"` it crashes in `max()` over
an empty header list. -/
theorem claim_C3 :
    (∀ e : String, createTruthTable e ≠ .noVariables) ∧
    createTruthTable "TRUE AND FALSE" = .table ["TRUE ^ FALSE"] [[false]] false ∧
    createTruthTable "TRUE" = .headerCrash :=
  ⟨createTruthTable_ne_noVariables, rfl, rfl⟩

/-- Claim C3, witness: the unreachability of the no-variables report at
the concrete input `"P"`. -/
theorem claim_C3_witness : createTruthTable "P" ≠ .noVariables :=
  claim_C3.1 "P"

/-- Claim C4, counterexample: operator words and constants are matched
case-sensitively — lower-casing AND (or TRUE) turns a successful
tokenization into a lexical error, so tokenization is not
case-insensitive for operator words and constants. -/
theorem claim_C4_counterexample :
    tokenizeExpr "P AND Q" = .ok ["P", "AND", "Q"] ∧
    tokenizeExpr "P and Q" = .error (.unexpectedChar 'a') ∧
    tokenizeExpr "TRUE" = .ok ["TRUE"] ∧
    tokenizeExpr "true" = .error (.unexpectedChar 't') :=
  ⟨rfl, rfl, rfl, rfl⟩

/-- Claim C4, amended: every emitted token is canonical uppercase, and
variable letters are matched case-insensitively (lowercase p, q, r
tokenize to their uppercase forms); operator words must appear as in
the pattern (uppercase words, or the lowercase glyph-list entry `or`),
and constants must be uppercase. -/
theorem claim_C4_amended :
    (∀ (s : String) (ts : List String), tokenizeExpr s = .ok ts →
      ∀ t ∈ ts, t ∈ canonicalTokens) ∧
    tokenizeExpr "p" = .ok ["P"] ∧ tokenizeExpr "q" = .ok ["Q"] ∧
    tokenizeExpr "r" = .ok ["R"] ∧
    tokenizeExpr "P or ~p" = .ok ["P", "OR", "NOT", "P"] ∧
    tokenizeExpr "P OR ~P" = .ok ["P", "OR", "NOT", "P"] :=
  ⟨fun _ _ h => tokenizeAux_canonical _ _ _ h, rfl, rfl, rfl, rfl, rfl⟩

/-- Claim C4, witness: canonical-token membership instantiated on the
tokenization of `"p"`. -/
theorem claim_C4_witness : "P" ∈ canonicalTokens :=
  claim_C4_amended.1 "p" ["P"] rfl "P" (by decide)

/-- Claim C5: the evaluator fails with a reported error whenever the
final stack is not a single value — concretely on the sequence of
`"P AND"` under every assignment, and in general on any completed scan
with a stack of length other than one — and whenever a variable of the
sequence is missing from the assignment. -/
theorem claim_C5 :
    (tokenizeExpr "P AND" = .ok ["P", "AND"] ∧
     convertToRpn ["P", "AND"] = .ok ["P", "AND"] ∧
     ∀ values : List (String × Bool), ∃ e, evalRpnExpr ["P", "AND"] values = .error e) ∧
    (∀ (rpn : List String) (values : List (String × Bool)) (v : String),
      v ∈ rpn → variablesSet.contains v = true → values.lookup v = none →
      ∃ e, evalRpnExpr rpn values = .error e) ∧
    (∀ (rpn : List String) (values st res : List (String × Bool)),
      evalAux values rpn [] [] = .ok (st, res) → st.length ≠ 1 →
      evalRpnExpr rpn values = .error .invalidRpn) := by
  refine ⟨⟨rfl, rfl, ?_⟩, ?_, ?_⟩
  · intro values
    have step : evalAux values ["P", "AND"] [] [] =
        (match values.lookup "P" with
         | some v => evalAux values ["AND"] [("P", v)] []
         | none => .error (.keyError "P")) := rfl
    cases hl : values.lookup "P" with
    | none =>
      refine ⟨.keyError "P", ?_⟩
      unfold evalRpnExpr
      rw [step, hl]
    | some v =>
      refine ⟨.popEmpty, ?_⟩
      unfold evalRpnExpr
      rw [step, hl]
      rfl
  · intro rpn values v hmem hvar hnone
    obtain ⟨e, he⟩ := evalAux_missing_var rpn values [] [] v hmem hvar hnone
    refine ⟨e, ?_⟩
    unfold evalRpnExpr
    rw [he]
  · intro rpn values st res h hlen
    unfold evalRpnExpr
    rw [h]
    cases st with
    | nil => rfl
    | cons a rest =>
      cases rest with
      | nil => exact absurd rfl hlen
      | cons b rest2 => rfl

/-- Claim C5, witness: the three failure modes at concrete inputs — the
sequence of `"P AND"` under the empty assignment, a variable missing
from the assignment, and a completed scan leaving two stack values. -/
theorem claim_C5_witness :
    (∃ e, evalRpnExpr ["P", "AND"] [] = .error e) ∧
    (∃ e, evalRpnExpr ["Q"] [] = .error e) ∧
    evalRpnExpr ["P", "P"] [("P", true)] = .error .invalidRpn :=
  ⟨claim_C5.1.2.2 [],
   claim_C5.2.1 ["Q"] [] "Q" (by decide) (by decide) rfl,
   claim_C5.2.2 ["P", "P"] [("P", true)] [("P", true), ("P", true)] [] rfl (by decide)⟩

/-- Claim C6: the conversion fails on unbalanced parentheses in both
directions — a right parenthesis with no matching left parenthesis on
the stack errors in the RPAREN loop, and a parenthesis surviving to the
drain loop errors there, as on `"(P AND Q"`. -/
theorem claim_C6 :
    (∀ (ts ops out : List String), "(" ∉ ops →
      ∃ e, convertAux (")" :: ts) ops out = .error e) ∧
    (∀ (ops out : List String), ("(" ∈ ops ∨ ")" ∈ ops) →
      ∃ e, drainOps ops out = .error e) ∧
    tokenizeExpr "(P AND Q" = .ok ["(", "P", "AND", "Q"] ∧
    convertToRpn ["(", "P", "AND", "Q"] = .error .mismatched ∧
    convertToRpn [")"] = .error .popEmpty := by
  refine ⟨?_, ?_, rfl, rfl, rfl⟩
  · intro ts ops out hmem
    refine ⟨.popEmpty, ?_⟩
    have hpu := popUntilLparen_no_lparen ops out hmem
    simp only [convertAux]
    rw [if_neg (by decide : ¬ ((variablesSet.contains ")" || constantsSet.contains ")") = true)),
      if_neg (by decide : ¬ (isOpName ")" = true)),
      if_neg (by decide : ¬ ((")" : String) = "("))]
    rw [if_pos trivial, hpu]
  · intro ops out hp
    exact ⟨.mismatched, drainOps_paren ops out hp⟩

/-- Claim C6, witness: a bare right parenthesis with an empty stack, and
a leftover left parenthesis in the drain loop. -/
theorem claim_C6_witness :
    (∃ e, convertAux [")"] [] [] = .error e) ∧
    (∃ e, drainOps ["("] [] = .error e) :=
  ⟨claim_C6.1 [] [] [] (by decide), claim_C6.2.1 ["("] [] (Or.inl (by decide))⟩

/-- Claim C7: whenever a table is produced, it has `2 ^ k` rows for the
`k` referenced variables, the variable columns are the distinct
referenced variables in sorted order at the front of the headers, and
the rows' variable parts enumerate the assignments in counting order
from all-false to all-true with the last variable fastest. -/
theorem claim_C7 :
    ∀ (expr : String) (tokens hdrs : List String) (rows : List (List Bool)) (tf : Bool),
      tokenizeExpr expr = .ok tokens →
      1 ≤ (sortedVars tokens).length →
      createTruthTable expr = .table hdrs rows tf →
      rows.length = 2 ^ (sortedVars tokens).length ∧
      List.Pairwise (fun a b : String => a < b) (sortedVars tokens) ∧
      (∃ subs, hdrs = sortedVars tokens ++ subs) ∧
      rows.map (List.take (sortedVars tokens).length) =
        countingOrder (sortedVars tokens).length := by
  intro expr tokens hdrs rows tf htok _ h
  rw [createTruthTable_ok_buildTable expr tokens htok] at h
  obtain ⟨rpn, hcv, h2⟩ := buildTable_table_inv tokens hdrs rows tf h
  obtain ⟨fe, subs, hev, h3⟩ := buildTable2_table_inv tokens _ _ rpn hdrs rows tf h2
  obtain ⟨hh, rows', hra, hmap⟩ :=
    rowLoopAux_table tokens (sortedVars tokens) _ _ [] true hdrs rows tf
      (sortedVars_nodup tokens) (fun c hc => boolProd_mem_length _ c hc) h3
  rw [List.nil_append] at hra
  subst hra
  refine ⟨?_, sortedVars_sorted tokens, ⟨dedupFirst (subs.map Prod.fst), hh⟩, ?_⟩
  · have hlen2 := congrArg List.length hmap
    simpa [boolProd_length] using hlen2
  · rw [hmap]
    exact boolProd_eq_countingOrder _

/-- Claim C7, witness: the shape conclusions instantiated on the table
of `"P OR Q"`. -/
theorem claim_C7_witness :
    ([[false, false, false], [false, true, true], [true, false, true], [true, true, true]] :
        List (List Bool)).length = 2 ^ (sortedVars ["P", "OR", "Q"]).length ∧
    List.Pairwise (fun a b : String => a < b) (sortedVars ["P", "OR", "Q"]) ∧
    (∃ subs, ["P", "Q", "P v Q"] = sortedVars ["P", "OR", "Q"] ++ subs) ∧
    ([[false, false, false], [false, true, true], [true, false, true], [true, true, true]] :
        List (List Bool)).map (List.take (sortedVars ["P", "OR", "Q"]).length) =
      countingOrder (sortedVars ["P", "OR", "Q"]).length :=
  claim_C7 "P OR Q" ["P", "OR", "Q"] ["P", "Q", "P v Q"]
    [[false, false, false], [false, true, true], [true, false, true], [true, true, true]]
    false rfl (by decide) rfl

/-- Claim C8: the returned tautology flag is true exactly when every
enumerated row's final value is true; concretely `"P OR ~P"` yields a
tautology and `"P AND Q"` does not. -/
theorem claim_C8 :
    (∀ (expr : String) (tokens hdrs : List String) (rows : List (List Bool)) (tf : Bool),
      tokenizeExpr expr = .ok tokens →
      createTruthTable expr = .table hdrs rows tf →
      (tf = true ↔ ∀ c ∈ boolProd (sortedVars tokens).length,
        rowFinal tokens (sortedVars tokens) c = some true)) ∧
    createTruthTable "P OR ~P" =
      .table ["P", "~P", "P v ~P"] [[false, true, true], [true, false, true]] true ∧
    createTruthTable "P AND Q" =
      .table ["P", "Q", "P ^ Q"]
        [[false, false, false], [false, true, false], [true, false, false], [true, true, true]]
        false := by
  refine ⟨?_, rfl, rfl⟩
  intro expr tokens hdrs rows tf htok h
  rw [createTruthTable_ok_buildTable expr tokens htok] at h
  obtain ⟨rpn, hcv, h2⟩ := buildTable_table_inv tokens hdrs rows tf h
  obtain ⟨fe, subs, hev, h3⟩ := buildTable2_table_inv tokens _ _ rpn hdrs rows tf h2
  have ihh := rowLoopAux_taut tokens (sortedVars tokens) _ _ [] true hdrs rows tf h3
  simpa using ihh

/-- Claim C8, witness: the verdict characterization instantiated on the
non-tautology `"P AND Q"`. -/
theorem claim_C8_witness :
    (false = true ↔ ∀ c ∈ boolProd (sortedVars ["P", "AND", "Q"]).length,
      rowFinal ["P", "AND", "Q"] (sortedVars ["P", "AND", "Q"]) c = some true) :=
  claim_C8.1 "P AND Q" ["P", "AND", "Q"] ["P", "Q", "P ^ Q"]
    [[false, false, false], [false, true, false], [true, false, false], [true, true, true]]
    false rfl rfl

/-- Claim C9: for a fixed Reverse-Polish sequence, the labels of the
trace are identical across any two assignments under which evaluation
succeeds — only the boolean values differ. -/
theorem claim_C9 :
    ∀ (rpn : List String) (v₁ v₂ : List (String × Bool)) (b₁ b₂ : Bool)
      (t₁ t₂ : List (String × Bool)),
      evalRpnExpr rpn v₁ = .ok (b₁, t₁) → evalRpnExpr rpn v₂ = .ok (b₂, t₂) →
      t₁.map Prod.fst = t₂.map Prod.fst := by
  intro rpn v₁ v₂ b₁ b₂ t₁ t₂ h₁ h₂
  obtain ⟨e₁, hea₁, _⟩ := evalRpnExpr_ok_evalAux rpn v₁ b₁ t₁ h₁
  obtain ⟨e₂, hea₂, _⟩ := evalRpnExpr_ok_evalAux rpn v₂ b₂ t₂ h₂
  have l₁ := evalAux_labelRun rpn v₁ [] [] [e₁] t₁ hea₁
  have l₂ := evalAux_labelRun rpn v₂ [] [] [e₂] t₂ hea₂
  have := l₁.symm.trans l₂
  injection this with h3
  exact congrArg Prod.snd h3

/-- Claim C9, witness: the sequence `P NOT` under the two assignments
P = true and P = false produces the same trace labels. -/
theorem claim_C9_witness :
    ([("~P", false)] : List (String × Bool)).map Prod.fst =
      ([("~P", true)] : List (String × Bool)).map Prod.fst :=
  claim_C9 ["P", "NOT"] [("P", true)] [("P", false)] false true
    [("~P", false)] [("~P", true)] rfl rfl

/-- Claim C10: tokenizer output is always canonical, so the
unknown-token branches of the converter and — on converter output — of
the evaluator are unreachable. -/
theorem claim_C10 :
    ∀ (s : String) (ts : List String), tokenizeExpr s = .ok ts →
      (∀ t ∈ ts, t ∈ canonicalTokens) ∧
      (∀ u, convertToRpn ts ≠ .error (.unknownToken u)) ∧
      (∀ (rpn : List String) (values : List (String × Bool)) (u : String),
        convertToRpn ts = .ok rpn → evalRpnExpr rpn values ≠ .error (.unknownToken u)) := by
  intro s ts htok
  have hcanon : ∀ t ∈ ts, t ∈ canonicalTokens := tokenizeAux_canonical _ _ ts htok
  refine ⟨hcanon, ?_, ?_⟩
  · intro u h
    unfold convertToRpn at h
    cases hca : convertAux ts [] [] with
    | error e =>
      rw [hca] at h
      have h2 : (Except.error e : Except ConvErr (List String)) =
          .error (.unknownToken u) := h
      injection h2 with h3
      exact convertAux_no_unknown ts [] [] hcanon u (h3 ▸ hca)
    | ok pr =>
      obtain ⟨ops, out⟩ := pr
      rw [hca] at h
      have h2 : drainOps ops out = .error (.unknownToken u) := h
      cases drainOps_error ops out _ h2
  · intro rpn values u hconv h
    have halpha := convert_ok_alphabet ts rpn hconv
    unfold evalRpnExpr at h
    cases hea : evalAux values rpn [] [] with
    | error e =>
      rw [hea] at h
      have h2 : (Except.error e : Except EvalErr (Bool × List (String × Bool))) =
          .error (.unknownToken u) := h
      injection h2 with h3
      exact evalAux_no_unknown rpn values [] [] halpha u (h3 ▸ hea)
    | ok pr =>
      obtain ⟨stack, results⟩ := pr
      rw [hea] at h
      cases stack with
      | nil =>
        have h2 : (Except.error EvalErr.invalidRpn :
            Except EvalErr (Bool × List (String × Bool))) = .error (.unknownToken u) := h
        injection h2 with h3
        cases h3
      | cons entry rest =>
        cases rest with
        | nil =>
          have h2 : (Except.ok (entry.2, results) :
              Except EvalErr (Bool × List (String × Bool))) = .error (.unknownToken u) := h
          cases h2
        | cons e2 rest2 =>
          have h2 : (Except.error EvalErr.invalidRpn :
              Except EvalErr (Bool × List (String × Bool))) = .error (.unknownToken u) := h
          injection h2 with h3
          cases h3

/-- Claim C10, witness: canonicity and converter unreachability
instantiated on the tokenization of `"P ^ Q"`. -/
theorem claim_C10_witness :
    ("AND" ∈ canonicalTokens) ∧
    (∀ u, convertToRpn ["P", "AND", "Q"] ≠ .error (.unknownToken u)) :=
  ⟨(claim_C10 "P ^ Q" ["P", "AND", "Q"] rfl).1 "AND" (by decide),
   (claim_C10 "P ^ Q" ["P", "AND", "Q"] rfl).2.1⟩

end TruthTable
